import Mathlib

/-!
Shallow embedding of the retrieval core of the pdf_chat_assistant repository
(chunking, vector store, similarity search, prompt assembly, streaming),
together with theorems settling the frozen claims about it.

Python strings are modelled as `List Char` (named `Str` below); Python ints
as `ℤ` where sign matters, `ℕ` where only non-negative values occur; Python
floats as exact rationals `ℚ` (and as `ℝ` for the cosine-similarity value,
which divides by square roots).  Fallible code returns `Except`.
-/

namespace PdfChat

/-- Python strings modelled as lists of characters. -/
abbrev Str := List Char

/-! ### src/utils/chunking.py -/

/-- Clip one bound of a Python slice `s[i:j]` to an actual index:
negative indices count from the end, positive ones are clamped to the
length (CPython slice-index semantics). -/
def pyIndex (len : ℕ) (i : ℤ) : ℕ :=
  if i < 0 then (max 0 ((len : ℤ) + i)).toNat else min i.toNat len

/-- Python slice `s[i:j]` on a character list. -/
def pySlice (i j : ℤ) (xs : Str) : Str :=
  (xs.take (pyIndex xs.length j)).drop (pyIndex xs.length i)

/-- The `while start < length` loop of `chunk_pdf_text`, with an explicit
fuel argument for structural termination.  Each round appends
`pdf_text[start : min (start + chunk_size) length]` and advances `start`
by `step = chunk_size - overlap`.  Any fuel larger than the number of loop
rounds (at most `length` rounds, since `step ≥ 1` under the guard checked
by the caller) yields the loop's exact behaviour. -/
def chunkGo (text : Str) (cs step : ℤ) : ℕ → ℤ → List Str
  | 0, _ => []
  | fuel + 1, start =>
    if start < (text.length : ℤ) then
      pySlice start (min (start + cs) (text.length : ℤ)) text ::
        chunkGo text cs step fuel (start + step)
    else []

/-- `chunk_pdf_text(pdf_text, chunk_size, overlap)`: raises `ValueError`
when `chunk_size <= overlap`, otherwise emits overlapping windows starting
at offsets `0, step, 2*step, ...` with `step = chunk_size - overlap`. -/
def chunkPdfText (pdf_text : Str) (chunk_size overlap : ℤ) : Except Str (List Str) :=
  if chunk_size ≤ overlap then
    Except.error "chunk_size must be greater than overlap".toList
  else
    Except.ok (chunkGo pdf_text chunk_size (chunk_size - overlap) (pdf_text.length + 1) 0)

/-- The reconstruction operator of the coverage claim: concatenate the
chunks, removing each successive chunk's first `ov` characters. -/
def recombine (ov : ℕ) : List Str → Str
  | [] => []
  | c :: rest => c ++ (rest.map (fun d => d.drop ov)).flatten

/-! #### Chunking lemmas -/

theorem pyIndex_nonneg (len : ℕ) (i : ℤ) (h : 0 ≤ i) :
    pyIndex len i = min i.toNat len := by
  simp [pyIndex, not_lt.mpr h]

/-- For non-negative bounds, a Python slice is `take`-after-`drop`. -/
theorem pySlice_eq (i j : ℤ) (xs : Str) (hi : 0 ≤ i) (hj : 0 ≤ j) :
    pySlice i j xs = (xs.drop i.toNat).take (j.toNat - i.toNat) := by
  unfold pySlice
  rw [pyIndex_nonneg _ _ hi, pyIndex_nonneg _ _ hj, List.drop_take]
  rcases le_or_lt i.toNat xs.length with h | h
  · rw [min_eq_left h]
    rcases le_or_lt j.toNat xs.length with h' | h'
    · rw [min_eq_left h']
    · rw [min_eq_right h'.le]
      have hlen : (xs.drop i.toNat).length = xs.length - i.toNat := List.length_drop _ _
      rw [List.take_of_length_le (by omega), List.take_of_length_le (by omega)]
  · rw [min_eq_right h.le]
    have h2 : xs.drop i.toNat = [] := List.drop_eq_nil_of_le h.le
    have h3 : List.drop xs.length (xs.take (min j.toNat xs.length)) = [] :=
      List.drop_eq_nil_of_le (by simp)
    simp [h2, h3]

/-- Shape of one emitted chunk: for a window starting inside the text,
`pdf_text[start : min (start+cs) length]` is `take cs` of `drop start`. -/
theorem pySlice_window (text : Str) (cs : ℤ) (hcs : 0 ≤ cs) (start : ℕ)
    (hstart : start ≤ text.length) :
    pySlice (start : ℤ) (min ((start : ℤ) + cs) (text.length : ℤ)) text
      = (text.drop start).take cs.toNat := by
  have hj : 0 ≤ min ((start : ℤ) + cs) (text.length : ℤ) := by
    apply le_min <;> omega
  rw [pySlice_eq _ _ _ (by omega) hj]
  simp only [Int.toNat_natCast]
  rcases le_or_lt ((start : ℤ) + cs) (text.length : ℤ) with h | h
  · rw [min_eq_left h]
    congr 1
    omega
  · rw [min_eq_right h.le]
    have hlen : (text.drop start).length = text.length - start := List.length_drop _ _
    rw [List.take_of_length_le (by omega), List.take_of_length_le (by omega)]

/-- Dropping the first `overlap` characters of every chunk of the tail of
the loop and concatenating yields exactly the text from `start + overlap`
on: successive windows dovetail with no gap and no residue. -/
theorem chunkGo_drop_flatten (text : Str) (cs ov : ℤ) (h1 : 0 < ov) (h2 : ov < cs) :
    ∀ (fuel : ℕ) (start : ℕ), text.length < start + fuel →
      ((chunkGo text cs (cs - ov) fuel (start : ℤ)).map (fun c => c.drop ov.toNat)).flatten
        = text.drop (start + ov.toNat) := by
  intro fuel
  induction fuel with
  | zero =>
    intro start hf
    simp only [chunkGo, List.map_nil, List.flatten_nil]
    rw [List.drop_eq_nil_of_le (by omega)]
  | succ f ih =>
    intro start hf
    by_cases hlt : (start : ℤ) < (text.length : ℤ)
    · rw [chunkGo, if_pos hlt]
      have hcast : (start : ℤ) + (cs - ov) = ((start + (cs - ov).toNat : ℕ) : ℤ) := by
        push_cast; omega
      rw [pySlice_window text cs (by omega) start (by omega), hcast]
      rw [List.map_cons, List.flatten_cons,
        ih (start + (cs - ov).toNat) (by omega)]
      rw [List.drop_take, List.drop_drop]
      have e2 : start + (cs - ov).toNat + ov.toNat
          = (start + ov.toNat) + (cs.toNat - ov.toNat) := by omega
      have e3 : List.drop ((start + ov.toNat) + (cs.toNat - ov.toNat)) text
          = List.drop (cs.toNat - ov.toNat) (List.drop (start + ov.toNat) text) :=
        (List.drop_drop _ _ _).symm
      rw [e2, e3, List.take_append_drop]
    · rw [chunkGo, if_neg hlt]
      simp only [List.map_nil, List.flatten_nil]
      rw [List.drop_eq_nil_of_le (by omega)]

/-- Reassembling the whole chunk list (head chunk unchanged, every later
chunk with its first `overlap` characters removed) gives back the text. -/
theorem chunkGo_recombine (text : Str) (cs ov : ℤ) (h1 : 0 < ov) (h2 : ov < cs)
    (fuel : ℕ) (hf : text.length < fuel) :
    recombine ov.toNat (chunkGo text cs (cs - ov) fuel 0) = text := by
  cases fuel with
  | zero => omega
  | succ f =>
    by_cases hlt : (0 : ℤ) < (text.length : ℤ)
    · have h0 : ((0 : ℕ) : ℤ) = (0 : ℤ) := by norm_num
      rw [chunkGo, if_pos hlt]
      have hw := pySlice_window text cs (by omega) 0 (by omega)
      rw [h0] at hw
      rw [hw]
      have hcast : (0 : ℤ) + (cs - ov) = (((cs - ov).toNat : ℕ) : ℤ) := by
        omega
      rw [hcast, recombine,
        chunkGo_drop_flatten text cs ov h1 h2 f (cs - ov).toNat (by omega)]
      have e : (cs - ov).toNat + ov.toNat = cs.toNat := by omega
      rw [e]
      simp [List.take_append_drop]
    · have : text.length = 0 := by omega
      have htext : text = [] := List.length_eq_zero.mp this
      subst htext
      simp [chunkGo, recombine]

/-- Every chunk the loop emits either has length exactly `chunk_size` or
extends to the very end of the text (is a suffix of it). -/
theorem chunkGo_length_mem (text : Str) (cs ov : ℤ) (h1 : 0 < ov) (h2 : ov < cs) :
    ∀ (fuel : ℕ) (start : ℕ), ∀ c ∈ chunkGo text cs (cs - ov) fuel (start : ℤ),
      c.length = cs.toNat ∨ c.IsSuffix text := by
  intro fuel
  induction fuel with
  | zero => intro start c hc; simp [chunkGo] at hc
  | succ f ih =>
    intro start c hc
    by_cases hlt : (start : ℤ) < (text.length : ℤ)
    · rw [chunkGo, if_pos hlt] at hc
      have hcast : (start : ℤ) + (cs - ov) = ((start + (cs - ov).toNat : ℕ) : ℤ) := by
        push_cast; omega
      rw [pySlice_window text cs (by omega) start (by omega), hcast] at hc
      rcases List.mem_cons.mp hc with h | h
      · subst h
        rcases le_or_lt cs.toNat (text.length - start) with hle | hgt
        · left
          rw [List.length_take, List.length_drop]
          omega
        · right
          rw [List.take_of_length_le (by rw [List.length_drop]; omega)]
          exact List.drop_suffix _ _
      · exact ih (start + (cs - ov).toNat) c h
    · rw [chunkGo, if_neg hlt] at hc
      simp at hc

/-- One unfolding step of the chunking loop. -/
theorem chunkGo_succ (text : Str) (cs step : ℤ) (fuel : ℕ) (start : ℤ) :
    chunkGo text cs step (fuel + 1) start
      = if start < (text.length : ℤ) then
          pySlice start (min (start + cs) (text.length : ℤ)) text ::
            chunkGo text cs step fuel (start + step)
        else [] := rfl

/-- Evaluation of the chunker on any text of length 250 with
`chunk_size = 100`, `overlap = 20`: the loop visits starts 0, 80, 160 and
240, producing four chunks. -/
theorem chunkPdfText_len250 (text : Str) (h : text.length = 250) :
    chunkPdfText text 100 20
      = Except.ok [pySlice 0 100 text, pySlice 80 180 text,
          pySlice 160 250 text, pySlice 240 250 text] := by
  have hl : (text.length : ℤ) = 250 := by omega
  unfold chunkPdfText
  rw [if_neg (by omega), h]
  rw [chunkGo_succ, hl, if_pos (by decide), min_eq_left (by decide)]
  rw [show (250 : ℕ) = 249 + 1 from rfl, chunkGo_succ, hl, if_pos (by decide),
    min_eq_left (by decide)]
  rw [show (249 : ℕ) = 248 + 1 from rfl, chunkGo_succ, hl, if_pos (by decide),
    min_eq_right (by decide)]
  rw [show (248 : ℕ) = 247 + 1 from rfl, chunkGo_succ, hl, if_pos (by decide),
    min_eq_right (by decide)]
  rw [show (247 : ℕ) = 246 + 1 from rfl, chunkGo_succ, hl, if_neg (by decide)]
  norm_num

/-! ### Claims C1, C2, C7 -/

/-- Claim C1, counterexample: at `chunk_size = 3`, `overlap = 2`,
text `"abcd"`, the code returns the chunks `"abc", "bcd", "cd", "d"`;
the chunk `"cd"` is not the last one yet has length 2 ≠ 3, so the clause
"every chunk except possibly the last has length exactly chunk_size" is
false as stated. -/
theorem c1_counterexample :
    chunkPdfText "abcd".toList 3 2
        = Except.ok ["abc".toList, "bcd".toList, "cd".toList, "d".toList]
      ∧ ¬ (["abc".toList, "bcd".toList, "cd".toList, "d".toList].dropLast.all
            (fun c => c.length == 3) = true) := by
  constructor
  · rfl
  · decide

/-- Claim C1 (amended): for `chunk_size > overlap > 0`, the returned chunk
list reconstructs the text exactly when each successive chunk's first
`overlap` characters are removed before concatenation, and every chunk
either has length exactly `chunk_size` or runs to the end of the text (is
a suffix of it); only chunks that reach the end of the text — at least the
last one — may be shorter than `chunk_size`. -/
theorem c1_chunk_coverage (text : Str) (chunk_size overlap : ℤ)
    (h1 : 0 < overlap) (h2 : overlap < chunk_size) :
    ∃ cl, chunkPdfText text chunk_size overlap = Except.ok cl
      ∧ recombine overlap.toNat cl = text
      ∧ ∀ c ∈ cl, c.length = chunk_size.toNat ∨ c.IsSuffix text := by
  refine ⟨chunkGo text chunk_size (chunk_size - overlap) (text.length + 1) 0, ?_, ?_, ?_⟩
  · unfold chunkPdfText
    rw [if_neg (by omega)]
  · exact chunkGo_recombine text chunk_size overlap h1 h2 _ (by omega)
  · intro c hc
    exact chunkGo_length_mem text chunk_size overlap h1 h2 (text.length + 1) 0 c
      (by simpa using hc)

theorem c1_chunk_coverage_witness :
    (0 : ℤ) < 2 ∧ (2 : ℤ) < 3 ∧
      ∃ cl, chunkPdfText "abcd".toList 3 2 = Except.ok cl
        ∧ recombine (2 : ℤ).toNat cl = "abcd".toList
        ∧ ∀ c ∈ cl, c.length = (3 : ℤ).toNat ∨ c.IsSuffix "abcd".toList :=
  ⟨by decide, by decide, c1_chunk_coverage "abcd".toList 3 2 (by decide) (by decide)⟩

/-- Claim C2, counterexample: on a text of length 250 (here 250 copies of
the character a), `chunk_pdf_text(text, 100, 20)` returns four chunks, not
the three the claim states: the loop also runs at start offset 240, since
`240 < 250`. -/
theorem c2_counterexample :
    (∃ cl, chunkPdfText (List.replicate 250 'a') 100 20 = Except.ok cl
        ∧ cl.length = 4)
      ∧ ¬ (∃ cl, chunkPdfText (List.replicate 250 'a') 100 20 = Except.ok cl
        ∧ cl.length = 3) := by
  have h := chunkPdfText_len250 (List.replicate 250 'a') (by rw [List.length_replicate])
  constructor
  · exact ⟨_, h, rfl⟩
  · rintro ⟨cl, hcl, hlen⟩
    rw [h] at hcl
    simp only [Except.ok.injEq] at hcl
    subst hcl
    have h4 : List.length [pySlice 0 100 (List.replicate 250 'a'),
        pySlice 80 180 (List.replicate 250 'a'),
        pySlice 160 250 (List.replicate 250 'a'),
        pySlice 240 250 (List.replicate 250 'a')] = 4 := rfl
    rw [h4] at hlen
    omega

/-- Claim C2 (amended): for any text of length exactly 250,
`chunk_pdf_text(text, 100, 20)` returns exactly 4 chunks, the slices
`text[0:100]`, `text[80:180]`, `text[160:250]` and `text[240:250]`, of
lengths 100, 100, 90 and 10: the last two chunks (not only the last) are
shorter than the chunk size. -/
theorem c2_chunks_len250 (text : Str) (h : text.length = 250) :
    chunkPdfText text 100 20
        = Except.ok [pySlice 0 100 text, pySlice 80 180 text,
            pySlice 160 250 text, pySlice 240 250 text]
      ∧ (pySlice 0 100 text).length = 100
      ∧ (pySlice 80 180 text).length = 100
      ∧ (pySlice 160 250 text).length = 90
      ∧ (pySlice 240 250 text).length = 10 := by
  refine ⟨chunkPdfText_len250 text h, ?_, ?_, ?_, ?_⟩ <;>
    rw [pySlice_eq _ _ _ (by omega) (by omega)] <;>
    simp [List.length_take, List.length_drop, h]

theorem c2_chunks_len250_witness :
    (List.replicate 250 'a').length = 250 ∧
      (chunkPdfText (List.replicate 250 'a') 100 20
          = Except.ok [pySlice 0 100 (List.replicate 250 'a'),
              pySlice 80 180 (List.replicate 250 'a'),
              pySlice 160 250 (List.replicate 250 'a'),
              pySlice 240 250 (List.replicate 250 'a')]
        ∧ (pySlice 0 100 (List.replicate 250 'a')).length = 100
        ∧ (pySlice 80 180 (List.replicate 250 'a')).length = 100
        ∧ (pySlice 160 250 (List.replicate 250 'a')).length = 90
        ∧ (pySlice 240 250 (List.replicate 250 'a')).length = 10) :=
  ⟨by rw [List.length_replicate],
    c2_chunks_len250 (List.replicate 250 'a') (by rw [List.length_replicate])⟩

/-- Claim C7: for every text (the empty one included) and any
`chunk_size ≤ overlap`, `chunk_pdf_text` fails immediately with the
configuration `ValueError`, before any chunk is produced; the looping
branch is never entered. -/
theorem c7_config_error (text : Str) (chunk_size overlap : ℤ)
    (h : chunk_size ≤ overlap) :
    chunkPdfText text chunk_size overlap
      = Except.error "chunk_size must be greater than overlap".toList := by
  unfold chunkPdfText
  rw [if_pos h]

theorem c7_config_error_witness :
    (5 : ℤ) ≤ 5 ∧ chunkPdfText [] 5 5
      = Except.error "chunk_size must be greater than overlap".toList :=
  ⟨le_refl 5, c7_config_error [] 5 5 (le_refl 5)⟩

/-! ### Decimal rendering of naturals (Python str(n) in f-strings) -/

/-- Big-endian decimal digits of `n`, with explicit fuel for structural
termination (any fuel above the digit count — `n + 1` always suffices —
gives the exact decimal rendering). -/
def natDigitChars : ℕ → ℕ → List Char
  | 0, _ => []
  | fuel + 1, n =>
    if n < 10 then [Nat.digitChar n]
    else natDigitChars fuel (n / 10) ++ [Nat.digitChar (n % 10)]

/-- Decimal rendering of a natural number, as Python str(n) inside an
f-string. -/
def natDecimal (n : ℕ) : Str := natDigitChars (n + 1) n

/-- Numeric value of a decimal digit character. -/
def digitVal (c : Char) : ℕ := c.toNat - 48

def decVal (s : Str) : ℕ := s.foldl (fun a c => a * 10 + digitVal c) 0

theorem natDigitChars_succ (fuel n : ℕ) :
    natDigitChars (fuel + 1) n
      = if n < 10 then [Nat.digitChar n]
        else natDigitChars fuel (n / 10) ++ [Nat.digitChar (n % 10)] := rfl

theorem digitVal_digitChar : ∀ d < 10, digitVal (Nat.digitChar d) = d := by decide

theorem decVal_append_digit (s : Str) (c : Char) :
    decVal (s ++ [c]) = decVal s * 10 + digitVal c := by
  unfold decVal
  rw [List.foldl_append]
  rfl

theorem decVal_natDigitChars : ∀ fuel n : ℕ, n < fuel →
    decVal (natDigitChars fuel n) = n := by
  intro fuel
  induction fuel with
  | zero => intro n h; omega
  | succ f ih =>
    intro n h
    rw [natDigitChars_succ]
    by_cases h10 : n < 10
    · rw [if_pos h10]
      have hs : decVal [Nat.digitChar n] = digitVal (Nat.digitChar n) := by
        show 0 * 10 + digitVal (Nat.digitChar n) = _
        omega
      rw [hs, digitVal_digitChar n h10]
    · rw [if_neg h10, decVal_append_digit, ih (n / 10) (by omega),
        digitVal_digitChar (n % 10) (by omega)]
      omega

/-- Decimal rendering is injective: distinct indices give distinct key
suffixes. -/
theorem natDecimal_injective : Function.Injective natDecimal := by
  intro m n h
  have hm := decVal_natDigitChars (m + 1) m (by omega)
  have hn := decVal_natDigitChars (n + 1) n (by omega)
  unfold natDecimal at h
  rw [h, hn] at hm
  exact hm.symm

/-! ### src/utils/vector_store.py and storage side of embedding_service.py -/

/-- Metadata of a stored record; `store_pdf_embeddings` always writes all
three fields, so they are modelled as always present. -/
structure Metadata where
  pdf_id : Str
  chunk_index : ℕ
  text : Str
deriving DecidableEq

/-- One vector-store record: embedding vector (floats modelled as exact
rationals) plus metadata. -/
structure Entry where
  vector : List ℚ
  metadata : Metadata
deriving DecidableEq

/-- The in-memory store `self.embeddings`: a Python dict modelled as an
insertion-ordered association list (keys unique in any store the code
builds). -/
abbrev Store := List (Str × Entry)

/-- Python dict assignment `d[k] = v`: replace in place when the key is
present (keeping its position), else append. -/
def dictSet (store : Store) (k : Str) (v : Entry) : Store :=
  if store.any (fun r => r.1 == k) then
    store.map (fun r => if r.1 == k then (k, v) else r)
  else store ++ [(k, v)]

/-- `add_embedding(key, vector, metadata)`: insert-or-overwrite (the
`save_embeddings` call only mirrors the mapping to disk). -/
def addEmbedding (store : Store) (key : Str) (vector : List ℚ)
    (metadata : Metadata) : Store :=
  dictSet store key ⟨vector, metadata⟩

/-- `remove_embeddings_by_prefix(p)`: delete every record whose key
starts with `p`, keeping the rest in order. -/
def removeEmbeddingsByKeyStart (p : Str) (store : Store) : Store :=
  store.filter (fun r => !(p.isPrefixOf r.1))

/-- `clear_pdf_embeddings(pdf_id)`: purge all records whose key starts
with `f"{pdf_id}_"` (modelled with the f-string expanded). -/
def clearPdfEmbeddings (pdf_id : Str) (store : Store) : Store :=
  removeEmbeddingsByKeyStart (pdf_id ++ "_".toList) store

/-- `generate_embeddings(texts)`: one vector per text, in order; a
per-item provider failure (modelled by `embed` returning `none`) falls
back to the 768-dimensional zero vector instead of aborting the batch.
The network call itself is the external-collaborator boundary, passed in
as the function `embed`. -/
def generateEmbeddings (embed : Str → Option (List ℚ)) (texts : List Str) :
    List (List ℚ) :=
  texts.map (fun t => (embed t).getD (List.replicate 768 0))

/-- The record key `f"{pdf_id}_chunk_{idx}"`. -/
def chunkKey (pdf_id : Str) (idx : ℕ) : Str :=
  pdf_id ++ "_chunk_".toList ++ natDecimal idx

/-- The record `store_pdf_embeddings` writes for an indexed
(chunk, vector) pair. -/
def newRecord (pdf_id : Str) (p : ℕ × (Str × List ℚ)) : Str × Entry :=
  (chunkKey pdf_id p.1, ⟨p.2.2, ⟨pdf_id, p.1, p.2.1⟩⟩)

/-- `store_pdf_embeddings(pdf_id, chunks)`: purge the pdf's previous
records, then add one record per `enumerate(zip(chunks, vectors))` item. -/
def storePdfEmbeddings (embed : Str → Option (List ℚ)) (pdf_id : Str)
    (chunks : List Str) (store : Store) : Store :=
  ((chunks.zip (generateEmbeddings embed chunks)).enum).foldl
    (fun st p => addEmbedding st (chunkKey pdf_id p.1) p.2.2 ⟨pdf_id, p.1, p.2.1⟩)
    (clearPdfEmbeddings pdf_id store)

/-! #### Key and store lemmas -/

theorem chunkKey_inj (pdf_id : Str) {i j : ℕ}
    (h : chunkKey pdf_id i = chunkKey pdf_id j) : i = j := by
  unfold chunkKey at h
  rw [List.append_assoc, List.append_assoc] at h
  exact natDecimal_injective (List.append_cancel_left (List.append_cancel_left h))

/-- Every generated key starts with the pdf's purge pattern
`f"{pdf_id}_"`. -/
theorem chunkKey_keyStart (pdf_id : Str) (i : ℕ) :
    (pdf_id ++ "_".toList) <+: chunkKey pdf_id i := by
  refine ⟨"chunk_".toList ++ natDecimal i, ?_⟩
  unfold chunkKey
  rw [List.append_assoc, List.append_assoc]
  rfl

theorem dictSet_fresh (store : Store) (k : Str) (v : Entry)
    (h : ∀ r ∈ store, r.1 ≠ k) :
    dictSet store k v = store ++ [(k, v)] := by
  unfold dictSet
  rw [if_neg]
  simp only [List.any_eq_true, beq_iff_eq, not_exists, not_and]
  exact fun r hr => h r hr

/-- Folding fresh, pairwise-distinct keyed additions over a store appends
the new records in order. -/
theorem foldl_add_fresh (pdf_id : Str) :
    ∀ (l : List (ℕ × (Str × List ℚ))) (s : Store),
      (l.map Prod.fst).Nodup →
      (∀ p ∈ l, ∀ r ∈ s, r.1 ≠ chunkKey pdf_id p.1) →
      l.foldl
          (fun st p => addEmbedding st (chunkKey pdf_id p.1) p.2.2 ⟨pdf_id, p.1, p.2.1⟩)
          s
        = s ++ l.map (newRecord pdf_id) := by
  intro l
  induction l with
  | nil => intro s _ _; simp
  | cons p l' ih =>
    intro s hnd hfresh
    rw [List.foldl_cons]
    have hset : addEmbedding s (chunkKey pdf_id p.1) p.2.2 ⟨pdf_id, p.1, p.2.1⟩
        = s ++ [newRecord pdf_id p] :=
      dictSet_fresh s _ _ (fun r hr => hfresh p (List.Mem.head _) r hr)
    rw [hset, ih (s ++ [newRecord pdf_id p]) ?_ ?_]
    · simp [List.append_assoc]
    · exact (List.nodup_cons.mp (by simpa using hnd)).2
    · intro q hq r hr
      rcases List.mem_append.mp hr with hmem | hmem
      · exact hfresh q (List.Mem.tail _ hq) r hmem
      · have hrp : r = newRecord pdf_id p := by simpa using hmem
        subst hrp
        intro hkey
        have hij : p.1 = q.1 := chunkKey_inj pdf_id hkey
        have hnotin : p.1 ∉ l'.map Prod.fst := (List.nodup_cons.mp (by simpa using hnd)).1
        exact hnotin (hij ▸ List.mem_map_of_mem Prod.fst hq)

/-! ### Claim C4 -/

/-- Claim C4: after `store_pdf_embeddings(pdf_id, chunks)`, the records
whose key starts with `f"{pdf_id}_"` are exactly one per element of the
new chunk list, keyed `f"{pdf_id}_chunk_{idx}"`, in index order — all
previously stored records under that pattern were purged first, so
re-ingestion never leaves a union of old and new records. -/
theorem c4_reingestion_purges (embed : Str → Option (List ℚ)) (pdf_id : Str)
    (chunks : List Str) (store : Store) :
    (storePdfEmbeddings embed pdf_id chunks store).filter
        (fun r => (pdf_id ++ "_".toList).isPrefixOf r.1)
      = ((chunks.zip (generateEmbeddings embed chunks)).enum).map (newRecord pdf_id) := by
  unfold storePdfEmbeddings
  rw [foldl_add_fresh pdf_id _ _ ?_ ?_]
  · rw [List.filter_append]
    have h1 : (clearPdfEmbeddings pdf_id store).filter
        (fun r => (pdf_id ++ "_".toList).isPrefixOf r.1) = [] := by
      unfold clearPdfEmbeddings removeEmbeddingsByKeyStart
      rw [List.filter_filter]
      refine List.filter_eq_nil_iff.mpr (fun r _ => ?_)
      cases hb : (pdf_id ++ "_".toList).isPrefixOf r.1 <;> simp [hb]
    have h2 : (((chunks.zip (generateEmbeddings embed chunks)).enum).map
          (newRecord pdf_id)).filter
          (fun r => (pdf_id ++ "_".toList).isPrefixOf r.1)
        = ((chunks.zip (generateEmbeddings embed chunks)).enum).map (newRecord pdf_id) := by
      refine List.filter_eq_self.mpr (fun r hr => ?_)
      rcases List.mem_map.mp hr with ⟨q, _, hq⟩
      subst hq
      exact List.isPrefixOf_iff_prefix.mpr (chunkKey_keyStart pdf_id q.1)
    rw [h1, h2, List.nil_append]
  · rw [List.enum_map_fst]
    exact List.nodup_range _
  · intro p _ r hr
    unfold clearPdfEmbeddings removeEmbeddingsByKeyStart at hr
    have hnp := List.of_mem_filter hr
    intro hkey
    rw [hkey] at hnp
    rw [List.isPrefixOf_iff_prefix.mpr (chunkKey_keyStart pdf_id p.1)] at hnp
    simp at hnp

/-! ### src/services/embedding_service.py — find_similar_chunks -/

/-- One retrieval result dict, generic in the score type (float scores
are instantiated with `ℚ` for executable reasoning and `ℝ` for the exact
cosine value). -/
structure RResult (β : Type) where
  key : Str
  similarity : β
  text : Str
  chunk_index : ℕ
  pdf_id : Str
deriving DecidableEq

/-- The loop guard `if pdf_id and not key.startswith(f"{pdf_id}_")`:
records are skipped only when `pdf_id` is truthy (given AND non-empty)
and the key does not start with `f"{pdf_id}_"`. -/
def scopeSkip (pdf_id : Option Str) (key : Str) : Bool :=
  match pdf_id with
  | none => false
  | some p => !p.isEmpty && !((p ++ "_".toList).isPrefixOf key)

/-- The candidate results built by the store scan, in scan (insertion)
order: one per non-skipped record, scored by the similarity function
(`_cosine_similarity` in the source, kept as a parameter `sim`; the query
vector comes from the external `generate_query_embedding`). The dict the
scan reads is the same one the keys came from, so `get_embedding_data`
never returns `None` here. -/
def retrievalCandidates {β : Type} (sim : List ℚ → List ℚ → β)
    (q_vec : List ℚ) (pdf_id : Option Str) (store : Store) : List (RResult β) :=
  store.filterMap (fun r =>
    if scopeSkip pdf_id r.1 then none
    else some ⟨r.1, sim q_vec r.2.vector, r.2.metadata.text,
      r.2.metadata.chunk_index, r.2.metadata.pdf_id⟩)

/-- Stable insertion of a result into a descending-by-similarity list:
the element goes after every earlier element of greater-or-equal score
it is compared against from the left, i.e. before the first element with
score less-than-or-equal — matching the ordering
`list.sort(key=similarity, reverse=True)` guarantees (stable, descending;
the inserted element came earlier in scan order than everything in the
list, so it goes before equals). -/
def insertDesc {β : Type} [LinearOrder β] (x : RResult β) :
    List (RResult β) → List (RResult β)
  | [] => [x]
  | y :: ys =>
    if y.similarity ≤ x.similarity then x :: y :: ys else y :: insertDesc x ys

/-- Stable descending sort by similarity, modelling Python's stable
`list.sort(key=lambda r: r.similarity, reverse=True)`. -/
def sortDesc {β : Type} [LinearOrder β] (l : List (RResult β)) : List (RResult β) :=
  l.foldr insertDesc []

/-- `find_similar_chunks(query, pdf_id, top_k)`: scan, score, stable-sort
descending, then truncate to the first `top_k` results. -/
def findSimilarChunks {β : Type} [LinearOrder β] (sim : List ℚ → List ℚ → β)
    (q_vec : List ℚ) (pdf_id : Option Str) (top_k : ℕ) (store : Store) :
    List (RResult β) :=
  (sortDesc (retrievalCandidates sim q_vec pdf_id store)).take top_k

/-! #### Sorting lemmas -/

theorem insertDesc_perm {β : Type} [LinearOrder β] (x : RResult β) (l : List (RResult β)) :
    (insertDesc x l).Perm (x :: l) := by
  induction l with
  | nil => exact List.Perm.refl _
  | cons y ys ih =>
    unfold insertDesc
    by_cases h : y.similarity ≤ x.similarity
    · rw [if_pos h]
    · rw [if_neg h]
      exact (ih.cons y).trans (List.Perm.swap x y ys)

theorem sortDesc_perm {β : Type} [LinearOrder β] (l : List (RResult β)) :
    (sortDesc l).Perm l := by
  induction l with
  | nil => exact List.Perm.refl _
  | cons x xs ih =>
    exact (insertDesc_perm x (sortDesc xs)).trans (ih.cons x)

theorem insertDesc_pairwise {β : Type} [LinearOrder β] (x : RResult β)
    {l : List (RResult β)}
    (h : l.Pairwise (fun a b => b.similarity ≤ a.similarity)) :
    (insertDesc x l).Pairwise (fun a b => b.similarity ≤ a.similarity) := by
  induction l with
  | nil => simp [insertDesc]
  | cons y ys ih =>
    rcases List.pairwise_cons.mp h with ⟨hy, hys⟩
    unfold insertDesc
    by_cases hc : y.similarity ≤ x.similarity
    · rw [if_pos hc]
      refine List.pairwise_cons.mpr ⟨?_, h⟩
      intro z hz
      rcases List.mem_cons.mp hz with hz | hz
      · exact hz ▸ hc
      · exact le_trans (hy z hz) hc
    · rw [if_neg hc]
      refine List.pairwise_cons.mpr ⟨?_, ih hys⟩
      intro z hz
      have hz' : z ∈ x :: ys := (insertDesc_perm x ys).mem_iff.mp hz
      rcases List.mem_cons.mp hz' with hz' | hz'
      · exact hz' ▸ le_of_not_le hc
      · exact hy z hz'

theorem sortDesc_pairwise {β : Type} [LinearOrder β] (l : List (RResult β)) :
    (sortDesc l).Pairwise (fun a b => b.similarity ≤ a.similarity) := by
  induction l with
  | nil => simp [sortDesc]
  | cons x xs ih => exact insertDesc_pairwise x ih

/-- Stability: restricted to any one similarity score, sorting is the
identity — equal-score results keep their original relative order. -/
theorem insertDesc_filter {β : Type} [LinearOrder β] (x : RResult β)
    (l : List (RResult β)) (v : β) :
    (insertDesc x l).filter (fun r => decide (r.similarity = v))
      = (x :: l).filter (fun r => decide (r.similarity = v)) := by
  induction l with
  | nil => rfl
  | cons y ys ih =>
    unfold insertDesc
    by_cases hc : y.similarity ≤ x.similarity
    · rw [if_pos hc]
    · rw [if_neg hc]
      by_cases hx : x.similarity = v
      · have hy : ¬ y.similarity = v := by
          intro hy
          exact hc (le_of_eq (hy.trans hx.symm))
        simp [List.filter_cons, hx, hy, ih]
      · simp [List.filter_cons, hx, ih]

theorem sortDesc_filter {β : Type} [LinearOrder β] (l : List (RResult β)) (v : β) :
    (sortDesc l).filter (fun r => decide (r.similarity = v))
      = l.filter (fun r => decide (r.similarity = v)) := by
  induction l with
  | nil => rfl
  | cons x xs ih =>
    unfold sortDesc
    rw [List.foldr_cons, insertDesc_filter x _ v, List.filter_cons, List.filter_cons]
    unfold sortDesc at ih
    rw [ih]

/-- Dot product over exact rationals; the numerator of
`_cosine_similarity`. -/
def qDot (a b : List ℚ) : ℚ := ((a.zip b).map (fun p => p.1 * p.2)).sum

/-- A concrete, kernel-evaluable similarity function (score = candidate
vector dimensionality) used to instantiate the generic retrieval pipeline
in concrete theorems; exact rational or real arithmetic does not reduce
inside the kernel, while this score does. -/
def vecLen (_q v : List ℚ) : ℕ := v.length

/-- When scoped to a non-empty pdf_id, every candidate the scan keeps has
a key starting with `f"{pdf_id}_"`. -/
theorem retrievalCandidates_scope {β : Type} (sim : List ℚ → List ℚ → β)
    (q_vec : List ℚ) (p : Str) (hp : p ≠ []) (store : Store) :
    ∀ r ∈ retrievalCandidates sim q_vec (some p) store,
      (p ++ "_".toList) <+: r.key := by
  intro r hr
  rcases List.mem_filterMap.mp hr with ⟨e, _, hsome⟩
  by_cases hskip : scopeSkip (some p) e.1
  · rw [if_pos hskip] at hsome
    exact absurd hsome (by simp)
  · rw [if_neg hskip] at hsome
    obtain rfl : r = ⟨e.1, sim q_vec e.2.vector, e.2.metadata.text,
        e.2.metadata.chunk_index, e.2.metadata.pdf_id⟩ := (Option.some.inj hsome).symm
    have hemp : p.isEmpty = false := by
      cases p with
      | nil => exact absurd rfl hp
      | cons a as => rfl
    simp only [scopeSkip, hemp, Bool.not_false, Bool.true_and, Bool.not_eq_true',
      Bool.not_eq_false] at hskip
    exact List.isPrefixOf_iff_prefix.mp hskip

/-! ### Claims C3, C10 -/

/-- Claim C3, counterexample: the scoping guard tests Python truthiness
(`if pdf_id and ...`), so giving the empty string as pdf_id disables the
filter entirely: a stored record whose key `"x"` does not start with
`"" + "_" = "_"` is still returned.  "When pdf_id is given, every
returned result's key starts with the prefix" is therefore false as
stated for the given-but-empty pdf_id. -/
theorem c3_counterexample :
    findSimilarChunks vecLen [1] (some []) 3
        [("x".toList, ⟨[1], ⟨"doc".toList, 0, "t".toList⟩⟩)]
      = [⟨"x".toList, 1, "t".toList, 0, "doc".toList⟩]
    ∧ ¬ ((([] : Str) ++ "_".toList) <+: "x".toList) := by
  constructor
  · decide
  · decide

/-- Claim C3 (amended): for every similarity function, query vector,
scope and top_k, `find_similar_chunks` returns at most `top_k` results,
sorted descending by similarity, with equal-similarity results keeping
their original scan order (on each similarity level the output is a
prefix of the candidate scan), the truncation keeping only top-scoring
results of the full candidate list (no excluded candidate scores above
any returned one); and when a non-empty pdf_id is given, every returned
result's key starts with `f"{pdf_id}_"`. -/
theorem c3_find_similar (β : Type) [LinearOrder β] (sim : List ℚ → List ℚ → β)
    (q_vec : List ℚ) (pdf_id : Option Str) (top_k : ℕ) (store : Store) :
    (findSimilarChunks sim q_vec pdf_id top_k store).length ≤ top_k
    ∧ (findSimilarChunks sim q_vec pdf_id top_k store).Pairwise
        (fun a b => b.similarity ≤ a.similarity)
    ∧ (∀ v : β, (findSimilarChunks sim q_vec pdf_id top_k store).filter
          (fun r => decide (r.similarity = v))
        <+: (retrievalCandidates sim q_vec pdf_id store).filter
          (fun r => decide (r.similarity = v)))
    ∧ (∀ r ∈ findSimilarChunks sim q_vec pdf_id top_k store,
        ∀ c ∈ retrievalCandidates sim q_vec pdf_id store,
          c ∉ findSimilarChunks sim q_vec pdf_id top_k store →
            c.similarity ≤ r.similarity)
    ∧ (∀ p : Str, pdf_id = some p → p ≠ [] →
        ∀ r ∈ findSimilarChunks sim q_vec pdf_id top_k store,
          (p ++ "_".toList) <+: r.key) := by
  refine ⟨?_, ?_, ?_, ?_, ?_⟩
  · exact List.length_take_le top_k _
  · exact (sortDesc_pairwise _).sublist (List.take_sublist _ _)
  · intro v
    have h1 := (List.take_prefix top_k
      (sortDesc (retrievalCandidates sim q_vec pdf_id store))).filter
      (fun r => decide (r.similarity = v))
    rwa [sortDesc_filter] at h1
  · intro r hr c hc hnotin
    have hcS : c ∈ sortDesc (retrievalCandidates sim q_vec pdf_id store) :=
      (sortDesc_perm _).mem_iff.mpr hc
    rw [← List.take_append_drop top_k
      (sortDesc (retrievalCandidates sim q_vec pdf_id store))] at hcS
    rcases List.mem_append.mp hcS with hcT | hcD
    · exact absurd hcT hnotin
    · have hpw := sortDesc_pairwise (retrievalCandidates sim q_vec pdf_id store)
      rw [← List.take_append_drop top_k
        (sortDesc (retrievalCandidates sim q_vec pdf_id store))] at hpw
      exact (List.pairwise_append.mp hpw).2.2 r hr c hcD
  · rintro p rfl hp r hr
    have hrc : r ∈ retrievalCandidates sim q_vec (some p) store :=
      (sortDesc_perm _).mem_iff.mp ((List.take_sublist _ _).mem hr)
    exact retrievalCandidates_scope sim q_vec p hp store r hrc

/-- Concrete store for the C3 witness. -/
def wStore : Store :=
  [("doc_chunk_0".toList, ⟨[1], ⟨"doc".toList, 0, "alpha".toList⟩⟩),
   ("doc_chunk_1".toList, ⟨[2], ⟨"doc".toList, 1, "beta".toList⟩⟩)]

theorem c3_find_similar_witness :
    (findSimilarChunks vecLen [1] (some "doc".toList) 1 wStore).length ≤ 1
    ∧ (findSimilarChunks vecLen [1] (some "doc".toList) 1 wStore).Pairwise
        (fun a b => b.similarity ≤ a.similarity)
    ∧ (∀ v : ℕ, (findSimilarChunks vecLen [1] (some "doc".toList) 1 wStore).filter
          (fun r => decide (r.similarity = v))
        <+: (retrievalCandidates vecLen [1] (some "doc".toList) wStore).filter
          (fun r => decide (r.similarity = v)))
    ∧ (∀ r ∈ findSimilarChunks vecLen [1] (some "doc".toList) 1 wStore,
        ∀ c ∈ retrievalCandidates vecLen [1] (some "doc".toList) wStore,
          c ∉ findSimilarChunks vecLen [1] (some "doc".toList) 1 wStore →
            c.similarity ≤ r.similarity)
    ∧ (∀ p : Str, some "doc".toList = some p → p ≠ [] →
        ∀ r ∈ findSimilarChunks vecLen [1] (some "doc".toList) 1 wStore,
          (p ++ "_".toList) <+: r.key) :=
  c3_find_similar ℕ vecLen [1] (some "doc".toList) 1 wStore

/-- Claim C10: key-space scoping is not injective across document ids:
the id `"doc"` is distinct from `"doc_2"`, yet `"doc_2_chunk_0"` starts
with `"doc_"`, so `clear_pdf_embeddings("doc")` deletes the record of
document `"doc_2"`, and `find_similar_chunks` scoped to `"doc"` scans
and returns the `"doc_2"` chunk. -/
theorem c10_scope_collision :
    "doc".toList ≠ "doc_2".toList
    ∧ clearPdfEmbeddings "doc".toList
        [("doc_2_chunk_0".toList, ⟨[1], ⟨"doc_2".toList, 0, "hi".toList⟩⟩)] = []
    ∧ findSimilarChunks vecLen [1] (some "doc".toList) 3
        [("doc_2_chunk_0".toList, ⟨[1], ⟨"doc_2".toList, 0, "hi".toList⟩⟩)]
      = [⟨"doc_2_chunk_0".toList, 1, "hi".toList, 0, "doc_2".toList⟩] := by
  refine ⟨by decide, by decide, by decide⟩

/-! ### src/services/rag_service.py — _format_context -/

/-- Round a rational to the nearest integer, ties to even (the rounding
Python float formatting applies, here on the exact value). -/
def roundHalfEven (q : ℚ) : ℤ :=
  if q - ⌊q⌋ < 1/2 then ⌊q⌋
  else if 1/2 < q - ⌊q⌋ then ⌊q⌋ + 1
  else if ⌊q⌋ % 2 = 0 then ⌊q⌋ else ⌊q⌋ + 1

/-- Two zero-padded decimal digits. -/
def pad2 (n : ℕ) : Str := if n < 10 then '0' :: natDecimal n else natDecimal n

/-- Python's `f"{x:.2f}"` on the exact value: optional sign, integer
part, dot, two fractional digits (rounded half-even at the second
decimal). -/
def fmt2 (q : ℚ) : Str :=
  (if q < 0 then ['-'] else [])
    ++ natDecimal ((roundHalfEven ((if q < 0 then -q else q) * 100)).toNat / 100)
    ++ ['.']
    ++ pad2 ((roundHalfEven ((if q < 0 then -q else q) * 100)).toNat % 100)

/-- The f-string `f"[Chunk {idx} sim={similarity:.2f}]\n{text}"`. -/
def contextLine (idx : ℕ) (c : RResult ℚ) : Str :=
  "[Chunk ".toList ++ natDecimal idx ++ " sim=".toList ++ fmt2 c.similarity
    ++ "]".toList ++ ['\n'] ++ c.text

/-- The accumulating loop of `_format_context`: enumerate from 1 over all
given chunks, keeping a line only for chunks whose similarity exceeds
0.05. -/
def formatLines : ℕ → List (RResult ℚ) → List Str
  | _, [] => []
  | idx, c :: rest =>
    if c.similarity > 1/20 then contextLine idx c :: formatLines (idx + 1) rest
    else formatLines (idx + 1) rest

/-- `_format_context(chunks)`: empty string for no chunks, else the kept
lines joined by "\n\n" (a blank line between consecutive chunks). -/
def formatContext (chunks : List (RResult ℚ)) : Str :=
  if chunks.isEmpty then []
  else List.intercalate "\n\n".toList (formatLines 1 chunks)

/-- Context assembly as the specification words it: the retained chunks
(those whose similarity exceeds the 0.05 threshold), in their given
order, each annotated with its 1-based position in the given list and its
2-decimal similarity, followed by its raw text, blank-line separated. -/
def specAssembleContext (chunks : List (RResult ℚ)) : Str :=
  List.intercalate "\n\n".toList
    (((List.enumFrom 1 chunks).filter
        (fun p => decide (p.2.similarity > 1/20))).map
      (fun p => contextLine p.1 p.2))

/-! #### Formatting lemmas -/

theorem formatLines_eq (i : ℕ) (l : List (RResult ℚ)) :
    formatLines i l
      = ((List.enumFrom i l).filter
            (fun p => decide (p.2.similarity > 1/20))).map
          (fun p => contextLine p.1 p.2) := by
  induction l generalizing i with
  | nil => rfl
  | cons c rest ih =>
    rw [formatLines, List.enumFrom_cons, List.filter_cons]
    by_cases hc : c.similarity > 1/20
    · rw [if_pos hc, ih, if_pos (by simpa using hc), List.map_cons]
    · rw [if_neg hc, ih, if_neg (by simpa using hc)]

theorem formatLines_append (i : ℕ) (l1 l2 : List (RResult ℚ)) :
    formatLines i (l1 ++ l2)
      = formatLines i l1 ++ formatLines (i + l1.length) l2 := by
  induction l1 generalizing i with
  | nil => simp [formatLines]
  | cons c rest ih =>
    rw [List.cons_append, formatLines, formatLines]
    have e : i + 1 + rest.length = i + (c :: rest).length := by
      rw [List.length_cons]; omega
    by_cases hc : c.similarity > 1/20
    · rw [if_pos hc, if_pos hc, ih (i + 1), e, List.cons_append]
    · rw [if_neg hc, if_neg hc, ih (i + 1), e]

/-! ### Claims C8, C9 -/

/-- Claim C8: context assembly includes only chunks whose similarity
strictly exceeds 0.05.  First part: a below-threshold chunk contributes
nothing — replacing it (its text, key, everything) by any other
below-threshold chunk leaves the assembled context unchanged.  Second
part: for a single retrieved chunk at similarity 0.02, the assembled
context is exactly the empty string. -/
theorem c8_threshold :
    (∀ (pre suf : List (RResult ℚ)) (c c' : RResult ℚ),
        c.similarity ≤ 1/20 → c'.similarity ≤ 1/20 →
          formatContext (pre ++ c :: suf) = formatContext (pre ++ c' :: suf))
    ∧ (∀ (k t pid : Str) (ci : ℕ),
        formatContext [⟨k, 1/50, t, ci, pid⟩] = []) := by
  constructor
  · intro pre suf c c' hc hc'
    have h1 : (pre ++ c :: suf).isEmpty = false := by
      cases pre <;> rfl
    have h2 : (pre ++ c' :: suf).isEmpty = false := by
      cases pre <;> rfl
    unfold formatContext
    rw [h1, h2]
    simp only [Bool.false_eq_true, if_false]
    congr 1
    rw [formatLines_append, formatLines_append, formatLines, formatLines,
      if_neg (not_lt.mpr hc), if_neg (not_lt.mpr hc')]
  · intro k t pid ci
    have hns : ¬ ((1 : ℚ)/50 > 1/20) := by norm_num
    unfold formatContext
    rw [if_neg (by simp), formatLines, if_neg hns, formatLines]
    rfl

theorem c8_threshold_witness :
    ((⟨"k".toList, 1/100, "a".toList, 0, "p".toList⟩ : RResult ℚ).similarity ≤ 1/20)
    ∧ ((⟨"k2".toList, 1/50, "b".toList, 1, "p".toList⟩ : RResult ℚ).similarity ≤ 1/20)
    ∧ formatContext [(⟨"k".toList, 1/100, "a".toList, 0, "p".toList⟩ : RResult ℚ)]
        = formatContext [(⟨"k2".toList, 1/50, "b".toList, 1, "p".toList⟩ : RResult ℚ)]
    ∧ formatContext [(⟨"q".toList, 1/50, "t".toList, 2, "d".toList⟩ : RResult ℚ)] = [] :=
  ⟨by norm_num, by norm_num,
    c8_threshold.1 [] [] _ _ (by norm_num) (by norm_num),
    c8_threshold.2 "q".toList "t".toList "d".toList 2⟩

/-- Claim C9: `_format_context` produces exactly the format the
specification describes — retained chunks in their given order, each
annotated with its 1-based position and 2-decimal similarity, followed by
its raw text, consecutive chunks separated by a blank line. -/
theorem c9_context_format (chunks : List (RResult ℚ)) :
    formatContext chunks = specAssembleContext chunks := by
  unfold formatContext specAssembleContext
  by_cases h : chunks.isEmpty
  · rw [if_pos h]
    have hnil : chunks = [] := by
      cases chunks with
      | nil => rfl
      | cons a l => exact absurd h (by simp)
    subst hnil
    rfl
  · rw [if_neg h, formatLines_eq]

/-! ### _cosine_similarity (src/services/embedding_service.py) -/

/-- Sum of squares: the square of `np.linalg.norm` as an exact rational. -/
def qNormSq (a : List ℚ) : ℚ := (a.map (fun x => x ^ 2)).sum

/-- `_cosine_similarity(a, b)`: `0.0` when either vector has no nonzero
entry (`not a.any() or not b.any()`), `0.0` when the product of the norms
is zero, else the normalized dot product.  The vectors are exact
rationals; the score is the exact real value, `np.linalg.norm` being the
square root of the sum of squares.  This definition is the one place the
embedding leaves exact computable arithmetic, because of the square
roots. -/
noncomputable def cosineSimilarity (a b : List ℚ) : ℝ :=
  if !(a.any (fun x => x != 0)) || !(b.any (fun x => x != 0)) then 0
  else if Real.sqrt ((qNormSq a : ℚ) : ℝ) * Real.sqrt ((qNormSq b : ℚ) : ℝ) = 0 then 0
  else ((qDot a b : ℚ) : ℝ)
    / (Real.sqrt ((qNormSq a : ℚ) : ℝ) * Real.sqrt ((qNormSq b : ℚ) : ℝ))

/-! #### Cosine lemmas -/

theorem qDot_cons (x y : ℚ) (a b : List ℚ) :
    qDot (x :: a) (y :: b) = x * y + qDot a b := rfl

theorem qDot_comm (a b : List ℚ) : qDot a b = qDot b a := by
  induction a generalizing b with
  | nil => cases b <;> rfl
  | cons x a' ih =>
    cases b with
    | nil => rfl
    | cons y b' => rw [qDot_cons, qDot_cons, mul_comm x y, ih b']

theorem qNormSq_nonneg (a : List ℚ) : 0 ≤ qNormSq a := by
  induction a with
  | nil => exact le_refl 0
  | cons x a' ih =>
    have h : qNormSq (x :: a') = x ^ 2 + qNormSq a' := rfl
    rw [h]
    exact add_nonneg (sq_nonneg x) ih

theorem qNormSq_pos (a : List ℚ) (h : ∃ x ∈ a, x ≠ 0) : 0 < qNormSq a := by
  induction a with
  | nil => simp at h
  | cons x a' ih =>
    have hc : qNormSq (x :: a') = x ^ 2 + qNormSq a' := rfl
    rw [hc]
    rcases h with ⟨y, hy, hny⟩
    rcases List.mem_cons.mp hy with rfl | hy'
    · exact add_pos_of_pos_of_nonneg (pow_two_pos_of_ne_zero hny) (qNormSq_nonneg a')
    · exact add_pos_of_nonneg_of_pos (sq_nonneg x) (ih ⟨y, hy', hny⟩)

theorem qDot_self (a : List ℚ) : qDot a a = qNormSq a := by
  induction a with
  | nil => rfl
  | cons x a' ih =>
    rw [qDot_cons, ih]
    have h : qNormSq (x :: a') = x ^ 2 + qNormSq a' := rfl
    rw [h, pow_two]

/-! ### Claim C5 -/

/-- Claim C5: cosine similarity is symmetric; it is exactly 1.0 when both
arguments are the same vector with some nonzero entry; and it is exactly
0.0 (a value, not an error) whenever either argument is all-zero — in
either position. -/
theorem c5_cosine :
    (∀ a b : List ℚ, a.length = b.length →
      cosineSimilarity a b = cosineSimilarity b a)
    ∧ (∀ a : List ℚ, a.any (fun x => x != 0) = true → cosineSimilarity a a = 1)
    ∧ (∀ a b : List ℚ, (∀ x ∈ a, x = 0) →
        cosineSimilarity a b = 0 ∧ cosineSimilarity b a = 0) := by
  refine ⟨?_, ?_, ?_⟩
  · intro a b _
    unfold cosineSimilarity
    rw [Bool.or_comm, qDot_comm,
      mul_comm (Real.sqrt ((qNormSq a : ℚ) : ℝ)) (Real.sqrt ((qNormSq b : ℚ) : ℝ))]
  · intro a ha
    have hex : ∃ x ∈ a, x ≠ 0 := by
      simpa using ha
    have hpos : 0 < qNormSq a := qNormSq_pos a hex
    have hr : (0 : ℝ) < ((qNormSq a : ℚ) : ℝ) := by exact_mod_cast hpos
    unfold cosineSimilarity
    rw [ha]
    simp only [Bool.not_true, Bool.or_self, Bool.false_eq_true, if_false]
    rw [Real.mul_self_sqrt hr.le, if_neg (ne_of_gt hr), qDot_self]
    exact div_self (ne_of_gt hr)
  · intro a b hz
    have ha : a.any (fun x => x != 0) = false := by
      simp only [List.any_eq_false, bne_iff_ne, ne_eq, not_not]
      exact hz
    constructor
    · unfold cosineSimilarity
      rw [ha]
      simp
    · unfold cosineSimilarity
      rw [ha]
      simp

theorem c5_cosine_witness :
    ([(1 : ℚ), 2].length = [(3 : ℚ), 4].length)
    ∧ cosineSimilarity [1, 2] [3, 4] = cosineSimilarity [3, 4] [1, 2]
    ∧ ([(5 : ℚ)].any (fun x => x != 0) = true)
    ∧ cosineSimilarity [5] [5] = 1
    ∧ (∀ x ∈ [(0 : ℚ), 0], x = 0)
    ∧ cosineSimilarity [0, 0] [7, 8] = 0 ∧ cosineSimilarity [7, 8] [0, 0] = 0 :=
  ⟨rfl,
    c5_cosine.1 [1, 2] [3, 4] rfl,
    by simp,
    c5_cosine.2.1 [5] (by simp),
    by simp,
    (c5_cosine.2.2 [0, 0] [7, 8] (by simp)).1,
    (c5_cosine.2.2 [0, 0] [7, 8] (by simp)).2⟩

/-! ### src/services/gemini_client.py and rag_service.py — streaming -/

/-- A chat message `{role, content}`. -/
structure ChatMessage where
  role : Str
  content : Str
deriving DecidableEq

/-- `_build_prompt(user_prompt, context, chat_history)`: the fixed system
instruction, an optional context section (only when the context string is
non-empty), an optional history section holding the last five messages
each rendered `f"{role}: {content}"` (only when a history is passed and
it is non-empty — Python truthiness), then the question and the answer
cue, all joined with newlines. -/
def buildPrompt (user_prompt context : Str)
    (chat_history : Option (List ChatMessage)) : Str :=
  List.intercalate "\n".toList
    (["You are an assistant answering questions about an uploaded PDF. Base answers only on provided context. If unknown, say you lack the info.".toList]
      ++ (if context.isEmpty then [] else ["\nContext:\n".toList ++ context])
      ++ (match chat_history with
          | none => []
          | some l =>
            if l.isEmpty then []
            else "\nRecent conversation:".toList ::
              (l.drop (l.length - 5)).map (fun m => m.role ++ ": ".toList ++ m.content))
      ++ ["\nQuestion: ".toList ++ user_prompt ++ "\nAnswer:".toList])

/-- `GeminiClient.stream_response`: build the prompt, ask the generation
provider for the fragment stream, and yield each fragment's non-empty
text (`getattr(chunk, "text", "")` modelled as an optional text per
fragment).  A provider exception at the stream request (modelled as the
provider returning `Except.error`) is caught and surfaced as the single
yielded fragment `f"[Error] {e}"` — never re-raised. -/
def streamResponse (provider : Str → Except Str (List (Option Str)))
    (prompt context : Str) (chat_history : Option (List ChatMessage)) : List Str :=
  match provider (buildPrompt prompt context chat_history) with
  | Except.ok chunks =>
    chunks.filterMap (fun c =>
      if (c.getD []).isEmpty then none else some (c.getD []))
  | Except.error e => ["[Error] ".toList ++ e]

/-- `RAGService.stream_response`: retrieve the top-3 chunks scoped to the
pdf, format the context, delegate to the client's streaming call.  The
query embedding comes from the external embedding provider, passed in as
`embedQuery`; the similarity function is `_cosine_similarity`, kept as
the parameter `sim`. -/
def ragStreamResponse (sim : List ℚ → List ℚ → ℚ)
    (embedQuery : Str → List ℚ)
    (provider : Str → Except Str (List (Option Str)))
    (user_query pdf_id : Str)
    (chat_history : Option (List ChatMessage)) (store : Store) : List Str :=
  streamResponse provider user_query
    (formatContext (findSimilarChunks sim (embedQuery user_query) (some pdf_id) 3 store))
    chat_history

/-! ### Claim C6 -/

/-- Claim C6: when the generation provider raises at the moment the
stream is requested, the sequence the streaming answer operation returns
is exactly one fragment — the error marker `"[Error] "` followed by the
exception text — and then terminates; the exception is never propagated
(the operation still returns a well-formed list). -/
theorem c6_stream_error (sim : List ℚ → List ℚ → ℚ)
    (embedQuery : Str → List ℚ)
    (provider : Str → Except Str (List (Option Str)))
    (user_query pdf_id : Str)
    (chat_history : Option (List ChatMessage)) (store : Store) (e : Str)
    (hprov : ∀ p, provider p = Except.error e) :
    ragStreamResponse sim embedQuery provider user_query pdf_id chat_history store
        = ["[Error] ".toList ++ e]
      ∧ (ragStreamResponse sim embedQuery provider user_query pdf_id
          chat_history store).length = 1
      ∧ ∀ frag ∈ ragStreamResponse sim embedQuery provider user_query pdf_id
          chat_history store, "[Error]".toList <+: frag := by
  have h : ragStreamResponse sim embedQuery provider user_query pdf_id
      chat_history store = ["[Error] ".toList ++ e] := by
    unfold ragStreamResponse streamResponse
    rw [hprov]
  refine ⟨h, by rw [h]; rfl, ?_⟩
  intro frag hfrag
  rw [h] at hfrag
  rcases List.mem_singleton.mp hfrag with rfl
  exact ⟨' ' :: e, rfl⟩

/-- A generation provider that always raises (for the witness). -/
def failProvider : Str → Except Str (List (Option Str)) :=
  fun _ => Except.error "boom".toList

theorem c6_stream_error_witness :
    (∀ p, failProvider p = Except.error "boom".toList)
    ∧ (ragStreamResponse qDot (fun _ => []) failProvider "q".toList "d".toList
          none []
        = ["[Error] ".toList ++ "boom".toList]
      ∧ (ragStreamResponse qDot (fun _ => []) failProvider "q".toList "d".toList
          none []).length = 1
      ∧ ∀ frag ∈ ragStreamResponse qDot (fun _ => []) failProvider "q".toList
          "d".toList none [], "[Error]".toList <+: frag) :=
  ⟨fun _ => rfl,
    c6_stream_error qDot (fun _ => []) failProvider "q".toList "d".toList none []
      "boom".toList (fun _ => rfl)⟩

end PdfChat
